import Mathlib

/-!
Verification of the feed/search/relationship engine of the XClone program
(src/main.py): a terminal social-network manager over SQLite.

The relational state is embedded shallowly: each SQLite table becomes a list
of typed rows, and each SQL statement issued by the Python code becomes an
executable Lean function over those lists.  SQLite stores dates and times as
TEXT and compares them byte-wise, so the ordering used by ORDER BY clauses is
modelled as lexicographic comparison of character lists.  SQL LOWER and the
default (ASCII) case-insensitivity of LIKE are modelled by ASCII lowercasing;
this model covers ASCII data, which is also the range where Python str.lower
agrees with SQLite lower().
-/

/-- Byte-wise strict comparison of two TEXT values, as used by SQLite when it
sorts or compares TEXT columns (memcmp order; on ASCII data the char-code
order used here coincides with byte order of the UTF-8 encoding). -/
def lexLt : List Char → List Char → Bool
  | _, [] => false
  | [], _ :: _ => true
  | a :: as, b :: bs => decide (a.toNat < b.toNat) || (a == b && lexLt as bs)

/-- Byte-wise non-strict comparison of two TEXT values. -/
def lexLe : List Char → List Char → Bool
  | [], _ => true
  | _ :: _, [] => false
  | a :: as, b :: bs => decide (a.toNat < b.toNat) || (a == b && lexLe as bs)

theorem char_toNat_inj {a b : Char} (h : a.toNat = b.toNat) : a = b := by
  have ha := Char.ofNat_toNat a
  rw [← ha, h, Char.ofNat_toNat]

theorem lexLt_irrefl (as : List Char) : lexLt as as = false := by
  induction as with
  | nil => rfl
  | cons a as ih => simp [lexLt, ih]

theorem lexLe_refl (as : List Char) : lexLe as as = true := by
  induction as with
  | nil => rfl
  | cons a as ih => simp [lexLe, ih]

theorem lexLe_eq_not_lexLt (as bs : List Char) : lexLe as bs = !(lexLt bs as) := by
  induction as generalizing bs with
  | nil => cases bs <;> rfl
  | cons a as ih =>
    cases bs with
    | nil => rfl
    | cons b bs =>
      simp only [lexLe, lexLt, ih bs]
      rcases Nat.lt_trichotomy a.toNat b.toNat with h | h | h
      · have h2 : ¬ b.toNat < a.toNat := by omega
        have h3 : ¬ b = a := by
          intro e; subst e; exact Nat.lt_irrefl _ h
        simp [h, h2, h3]
      · have he : a = b := char_toNat_inj h
        subst he
        simp
      · have h2 : ¬ a.toNat < b.toNat := by omega
        have h3 : ¬ a = b := by
          intro e; subst e; exact Nat.lt_irrefl _ h
        simp [h, h2, h3]

theorem lexLt_asymm {as bs : List Char} (h : lexLt as bs = true) : lexLt bs as = false := by
  induction as generalizing bs with
  | nil =>
    cases bs with
    | nil => simp [lexLt] at h
    | cons b bs => simp [lexLt]
  | cons a as ih =>
    cases bs with
    | nil => simp [lexLt] at h
    | cons b bs =>
      simp only [lexLt, Bool.or_eq_true, Bool.and_eq_true, decide_eq_true_eq,
        beq_iff_eq] at h
      rcases h with h | ⟨he, h⟩
      · have h2 : ¬ b.toNat < a.toNat := by omega
        have h3 : ¬ b = a := by
          intro e; subst e; exact Nat.lt_irrefl _ h
        simp [lexLt, h2, h3]
      · subst he
        simp [lexLt, ih h]

theorem lexLt_trans {as bs cs : List Char} (h1 : lexLt as bs = true)
    (h2 : lexLt bs cs = true) : lexLt as cs = true := by
  induction as generalizing bs cs with
  | nil =>
    cases cs with
    | nil => cases bs <;> simp [lexLt] at h1 h2
    | cons c cs => simp [lexLt]
  | cons a as ih =>
    cases bs with
    | nil => simp [lexLt] at h1
    | cons b bs =>
      cases cs with
      | nil => simp [lexLt] at h2
      | cons c cs =>
        simp only [lexLt, Bool.or_eq_true, Bool.and_eq_true, decide_eq_true_eq,
          beq_iff_eq] at h1 h2 ⊢
        rcases h1 with h1 | ⟨e1, h1⟩
        · rcases h2 with h2 | ⟨e2, h2⟩
          · exact Or.inl (Nat.lt_trans h1 h2)
          · subst e2; exact Or.inl h1
        · subst e1
          rcases h2 with h2 | ⟨e2, h2⟩
          · exact Or.inl h2
          · subst e2; exact Or.inr ⟨rfl, ih h1 h2⟩

theorem lexLt_total (as bs : List Char) :
    lexLt as bs = true ∨ as = bs ∨ lexLt bs as = true := by
  induction as generalizing bs with
  | nil =>
    cases bs with
    | nil => exact Or.inr (Or.inl rfl)
    | cons b bs => exact Or.inl (by simp [lexLt])
  | cons a as ih =>
    cases bs with
    | nil => exact Or.inr (Or.inr (by simp [lexLt]))
    | cons b bs =>
      rcases Nat.lt_trichotomy a.toNat b.toNat with h | h | h
      · exact Or.inl (by simp [lexLt, h])
      · have he : a = b := char_toNat_inj h
        subst he
        rcases ih bs with h' | h' | h'
        · exact Or.inl (by simp [lexLt, h'])
        · exact Or.inr (Or.inl (by rw [h']))
        · exact Or.inr (Or.inr (by simp [lexLt, h']))
      · exact Or.inr (Or.inr (by simp [lexLt, h]))

theorem lexLe_of_lexLt {as bs : List Char} (h : lexLt as bs = true) : lexLe as bs = true := by
  rw [lexLe_eq_not_lexLt, lexLt_asymm h]
  rfl

theorem lexLe_total (as bs : List Char) : lexLe as bs = true ∨ lexLe bs as = true := by
  rcases lexLt_total as bs with h | h | h
  · exact Or.inl (lexLe_of_lexLt h)
  · subst h; exact Or.inl (lexLe_refl as)
  · exact Or.inr (lexLe_of_lexLt h)

theorem lexLe_trans {as bs cs : List Char} (h1 : lexLe as bs = true)
    (h2 : lexLe bs cs = true) : lexLe as cs = true := by
  rw [lexLe_eq_not_lexLt] at h1 h2 ⊢
  simp only [Bool.not_eq_true'] at h1 h2 ⊢
  by_contra hc
  have hca : lexLt cs as = true := by
    cases h : lexLt cs as
    · exact absurd h hc
    · rfl
  rcases lexLt_total as bs with h | h | h
  · have := lexLt_trans hca h
    rw [this] at h2; cases h2
  · subst h; rw [hca] at h2; cases h2
  · rw [h] at h1; cases h1

theorem lexLe_nil_left (bs : List Char) : lexLe [] bs = true := rfl

theorem lexLe_nil_right {as : List Char} (h : lexLe as [] = true) : as = [] := by
  cases as with
  | nil => rfl
  | cons a as => simp [lexLe] at h

/-- ASCII lowercasing of a single character: the folding applied by SQLite
lower() and by the default case-insensitive LIKE comparison (and by Python
str.lower() on ASCII input). -/
def lowerChar (c : Char) : Char :=
  if 65 ≤ c.toNat ∧ c.toNat ≤ 90 then Char.ofNat (c.toNat + 32) else c

/-- Lowercase a TEXT value character by character. -/
def strLower (s : String) : String := String.mk (s.data.map lowerChar)

theorem toNat_lowerChar (c : Char) :
    (lowerChar c).toNat = if 65 ≤ c.toNat ∧ c.toNat ≤ 90 then c.toNat + 32 else c.toNat := by
  unfold lowerChar
  by_cases h : 65 ≤ c.toNat ∧ c.toNat ≤ 90
  · rw [if_pos h, if_pos h]
    have hv : Nat.isValidChar (c.toNat + 32) := by
      left
      have : c.toNat ≤ 90 := h.2
      omega
    simp only [Char.toNat, UInt32.toNat] at hv
    simp [Char.ofNat, hv, Char.ofNatAux, Char.toNat, UInt32.ofNatCore, UInt32.toNat]
  · rw [if_neg h, if_neg h]

theorem lowerChar_idem (c : Char) : lowerChar (lowerChar c) = lowerChar c := by
  apply char_toNat_inj
  have ht := toNat_lowerChar c
  by_cases h : 65 ≤ c.toNat ∧ c.toNat ≤ 90
  · rw [if_pos h] at ht
    rw [toNat_lowerChar (lowerChar c), if_neg (by rw [ht]; omega)]
  · rw [if_neg h] at ht
    rw [toNat_lowerChar (lowerChar c), if_neg (by rw [ht]; exact h)]

theorem map_lowerChar_idem (cs : List Char) :
    (cs.map lowerChar).map lowerChar = cs.map lowerChar := by
  induction cs with
  | nil => rfl
  | cons c cs ih => simp [lowerChar_idem c, ih]

/-- Row of the users table: users(usr PK, name, email, phone, pwd). -/
structure UserRow where
  usr : Nat
  name : String
  email : String
  phone : String
  pwd : String
deriving DecidableEq

/-- Row of the tweets table: tweets(tid PK, writer_id, text, tdate, ttime,
replyto_tid NULLABLE). -/
structure TweetRow where
  tid : Nat
  writer_id : Nat
  text : String
  tdate : String
  ttime : String
  replyto_tid : Option Nat
deriving DecidableEq

/-- Row of the retweets table: retweets(tid, retweeter_id, writer_id, spam,
rdate), PK(tid, retweeter_id). -/
structure RetweetRow where
  tid : Nat
  retweeter_id : Nat
  writer_id : Nat
  spam : Nat
  rdate : String
deriving DecidableEq

/-- Row of the follows table: follows(flwer, flwee, start_date). -/
structure FollowRow where
  flwer : Nat
  flwee : Nat
  start_date : String
deriving DecidableEq

/-- Row of the hashtag_mentions table: hashtag_mentions(tid, term). -/
structure MentionRow where
  tid : Nat
  term : String
deriving DecidableEq

/-- Row of the lists table: lists(owner_id, lname). -/
structure ListRow where
  owner_id : Nat
  lname : String
deriving DecidableEq

/-- Row of the include table: include(owner_id, lname, tid). -/
structure IncludeRow where
  owner_id : Nat
  lname : String
  tid : Nat
deriving DecidableEq

/-- The full relational state of the program: one list of rows per table. -/
structure DB where
  users : List UserRow
  tweets : List TweetRow
  retweets : List RetweetRow
  follows : List FollowRow
  hashtag_mentions : List MentionRow
  lists : List ListRow
  includes : List IncludeRow
deriving DecidableEq

/-- SELECT MAX(usr) FROM users (sign_up, src/main.py:144): NULL on an empty
table, otherwise the maximum id. -/
def usersMax (db : DB) : Option Nat := (db.users.map (fun u => u.usr)).max?

/-- SELECT MAX(tid) FROM tweets (get_new_tid, src/main.py:779). -/
def tweetsMax (db : DB) : Option Nat := (db.tweets.map (fun t => t.tid)).max?

/-- New-user id computation of sign_up (src/main.py:146):
new_usr = max_usr + 1 if max_usr else 1, where both None (empty table) and 0
are falsy in Python. -/
def sign_up_new_usr (db : DB) : Nat :=
  match usersMax db with
  | none => 1
  | some m => if m = 0 then 1 else m + 1

/-- New-tweet id computation of get_new_tid (src/main.py:781):
(max_tid or 0) + 1, where the or-expression maps None and 0 to 0. -/
def get_new_tid (db : DB) : Nat :=
  (match tweetsMax db with
   | none => 0
   | some m => m) + 1

/-- C8: Id assignment uses max-plus-one independently per entity type: with
current maximum user id 7 the next user id is 8; on an empty users table the
first user id is 1; and in general the next id is the current maximum plus
one.  The same scheme governs tweet ids via get_new_tid. -/
theorem id_assignment (db : DB) (m m' : Nat)
    (hu : usersMax db = some m) (ht : tweetsMax db = some m') :
    sign_up_new_usr db = m + 1
    ∧ get_new_tid db = m' + 1
    ∧ (∀ d : DB, d.users = [] → sign_up_new_usr d = 1)
    ∧ (∀ d : DB, d.tweets = [] → get_new_tid d = 1)
    ∧ (m = 7 → sign_up_new_usr db = 8) := by
  have husr : sign_up_new_usr db = m + 1 := by
    unfold sign_up_new_usr
    rw [hu]
    by_cases h : m = 0
    · subst h; simp
    · simp [h]
  refine ⟨husr, ?_, ?_, ?_, ?_⟩
  · unfold get_new_tid
    rw [ht]
  · intro d hd
    unfold sign_up_new_usr usersMax
    rw [hd]
    rfl
  · intro d hd
    unfold get_new_tid tweetsMax
    rw [hd]
    rfl
  · intro h
    subst h
    exact husr

/-- Witness for id_assignment at a concrete database whose largest user id is
7 and whose largest tweet id is 3. -/
theorem id_assignment_witness :
    sign_up_new_usr (DB.mk [⟨7, "a", "e", "p", "w"⟩] [⟨3, 7, "t", "d", "m", none⟩] [] [] [] [] []) = 8
    ∧ get_new_tid (DB.mk [⟨7, "a", "e", "p", "w"⟩] [⟨3, 7, "t", "d", "m", none⟩] [] [] [] [] []) = 4 := by
  have h := id_assignment
    (DB.mk [⟨7, "a", "e", "p", "w"⟩] [⟨3, 7, "t", "d", "m", none⟩] [] [] [] [] [])
    7 3 (by decide) (by decide)
  exact ⟨h.2.2.2.2 rfl, h.2.1⟩

/-- Outcome of follow_user (src/main.py:992). -/
inductive FollowOutcome
  | selfFollow
  | alreadyFollowing
  | followed
deriving DecidableEq

/-- Number of follow edges for a given (follower, followee) pair. -/
def edgeCount (db : DB) (a b : Nat) : Nat :=
  (db.follows.filter (fun f => f.flwer == a && f.flwee == b)).length

/-- follow_user (src/main.py:992-1027): reject a self-follow before touching
storage; report a no-op if the (flwer, flwee) edge already exists (SELECT 1
FROM follows WHERE flwer = ? AND flwee = ?); otherwise INSERT the edge with
today's date (DATE('now')).  User ids are modelled as the integers they
denote; the interface layer supplies validated ids. -/
def follow_user (db : DB) (current_usr target_usr : Nat) (today : String) :
    FollowOutcome × DB :=
  if current_usr = target_usr then (.selfFollow, db)
  else if db.follows.any (fun f => f.flwer == current_usr && f.flwee == target_usr) then
    (.alreadyFollowing, db)
  else
    (.followed, { db with follows := db.follows ++ [⟨current_usr, target_usr, today⟩] })

/-- C6: Following oneself is always rejected regardless of the follow graph;
a successful follow inserts the edge with today's date; and following the
same pair twice leaves exactly one edge: from a state with no such edge the
first call inserts one edge and the second call is a no-op, and when the edge
already exists the call is a no-op as well. -/
theorem follow_rules (db : DB) (cur tgt : Nat) (d1 d2 : String)
    (hne : cur ≠ tgt) (h0 : edgeCount db cur tgt = 0) :
    (∀ (d : DB) (u : Nat) (day : String), follow_user d u u day = (.selfFollow, d))
    ∧ follow_user db cur tgt d1 =
        (.followed, { db with follows := db.follows ++ [⟨cur, tgt, d1⟩] })
    ∧ edgeCount { db with follows := db.follows ++ [⟨cur, tgt, d1⟩] } cur tgt = 1
    ∧ follow_user { db with follows := db.follows ++ [⟨cur, tgt, d1⟩] } cur tgt d2 =
        (.alreadyFollowing, { db with follows := db.follows ++ [⟨cur, tgt, d1⟩] })
    ∧ (∀ (d : DB) (day : String), 0 < edgeCount d cur tgt →
        follow_user d cur tgt day = (.alreadyFollowing, d)) := by
  have hnone : db.follows.any (fun f => f.flwer == cur && f.flwee == tgt) = false := by
    unfold edgeCount at h0
    rw [List.length_eq_zero] at h0
    rw [List.any_eq_false]
    intro f hf
    intro hc
    have : f ∈ db.follows.filter (fun f => f.flwer == cur && f.flwee == tgt) :=
      List.mem_filter.mpr ⟨hf, hc⟩
    rw [h0] at this
    exact absurd this (List.not_mem_nil f)
  have hcount : edgeCount { db with follows := db.follows ++ [⟨cur, tgt, d1⟩] } cur tgt = 1 := by
    unfold edgeCount at h0 ⊢
    simp only [List.filter_append] at *
    rw [List.length_append, h0]
    simp
  refine ⟨?_, ?_, hcount, ?_, ?_⟩
  · intro d u day
    unfold follow_user
    simp
  · unfold follow_user
    rw [if_neg hne, if_neg (by rw [hnone]; simp)]
  · unfold follow_user
    rw [if_neg hne]
    rw [if_pos]
    simp only [List.any_append]
    simp
  · intro d day hpos
    unfold follow_user
    rw [if_neg hne]
    rw [if_pos]
    unfold edgeCount at hpos
    rcases List.length_pos.mp hpos with _
    have : ∃ f, f ∈ d.follows.filter (fun f => f.flwer == cur && f.flwee == tgt) := by
      rcases List.exists_mem_of_length_pos hpos with ⟨f, hf⟩
      exact ⟨f, hf⟩
    rcases this with ⟨f, hf⟩
    rcases List.mem_filter.mp hf with ⟨hmem, hcond⟩
    rw [List.any_eq_true]
    exact ⟨f, hmem, hcond⟩

/-- Witness for follow_rules: user 1 follows user 2 twice in a small concrete
database; exactly one edge results and the duplicate is a no-op. -/
theorem follow_rules_witness :
    follow_user (DB.mk [] [] [] [] [] [] []) 1 2 "2024-01-01" =
      (.followed, DB.mk [] [] [] [⟨1, 2, "2024-01-01"⟩] [] [] [])
    ∧ edgeCount (DB.mk [] [] [] [⟨1, 2, "2024-01-01"⟩] [] [] []) 1 2 = 1
    ∧ follow_user (DB.mk [] [] [] [⟨1, 2, "2024-01-01"⟩] [] [] []) 1 2 "2024-01-02" =
      (.alreadyFollowing, DB.mk [] [] [] [⟨1, 2, "2024-01-01"⟩] [] [] [])
    ∧ follow_user (DB.mk [] [] [] [] [] [] []) 5 5 "2024-01-01" =
      (.selfFollow, DB.mk [] [] [] [] [] [] []) := by
  have h := follow_rules (DB.mk [] [] [] [] [] [] []) 1 2 "2024-01-01" "2024-01-02"
    (by decide) (by decide)
  exact ⟨h.2.1, h.2.2.1, h.2.2.2.1, h.1 (DB.mk [] [] [] [] [] [] []) 5 "2024-01-01"⟩

/-- Outcome of add_to_favorite_list (src/main.py:600). -/
inductive FavOutcome
  | noLists
  | invalidChoice
  | alreadyInList
  | added
deriving DecidableEq

/-- SELECT lname FROM lists WHERE owner_id = ? (src/main.py:624). -/
def userLists (db : DB) (usr : Nat) : List String :=
  (db.lists.filter (fun l => l.owner_id == usr)).map (fun l => l.lname)

/-- Number of membership rows for a given (owner, list, tid) triple. -/
def includeCount (db : DB) (usr : Nat) (lname : String) (tid : Nat) : Nat :=
  (db.includes.filter
    (fun i => i.owner_id == usr && i.lname == lname && i.tid == tid)).length

/-- add_to_favorite_list (src/main.py:600-670): fetch the owner's lists; with
no lists the interactive path prompts creation (modelled here as the user
declining, which returns without writing); the caller picks a list by number;
if (owner, lname, tid) is already in include, report a no-op; otherwise
INSERT the membership row.  No query against the tweets table occurs
anywhere: the tweet id is taken as given.  (This connection is opened without
the foreign-keys pragma, so even a declared reference could not block the
insert.) -/
def add_to_favorite_list (db : DB) (usr tid choice : Nat) : FavOutcome × DB :=
  let fav_lists := userLists db usr
  if fav_lists.isEmpty then (.noLists, db)
  else
    match fav_lists[choice]? with
    | none => (.invalidChoice, db)
    | some lname =>
      if db.includes.any
          (fun i => i.owner_id == usr && i.lname == lname && i.tid == tid) then
        (.alreadyInList, db)
      else
        (.added, { db with includes := db.includes ++ [⟨usr, lname, tid⟩] })

/-- C10: Adding a tweet to a favorite list performs no existence check on the
tweet id: even when no tweet with that id exists in the tweets table, the
operation inserts the (owner, list, tid) membership row and reports success. -/
theorem favorite_add_no_check (db : DB) (usr tid choice : Nat) (lname : String)
    (habsent : ∀ t ∈ db.tweets, t.tid ≠ tid)
    (hpick : (userLists db usr)[choice]? = some lname)
    (hnew : includeCount db usr lname tid = 0) :
    add_to_favorite_list db usr tid choice =
      (.added, { db with includes := db.includes ++ [⟨usr, lname, tid⟩] })
    ∧ includeCount { db with includes := db.includes ++ [⟨usr, lname, tid⟩] } usr lname tid = 1 := by
  have hnonempty : (userLists db usr).isEmpty = false := by
    cases h : userLists db usr with
    | nil => rw [h] at hpick; simp at hpick
    | cons a l => simp [h]
  have hnoany : db.includes.any
      (fun i => i.owner_id == usr && i.lname == lname && i.tid == tid) = false := by
    unfold includeCount at hnew
    rw [List.length_eq_zero] at hnew
    rw [List.any_eq_false]
    intro i hi hc
    have : i ∈ db.includes.filter
        (fun i => i.owner_id == usr && i.lname == lname && i.tid == tid) :=
      List.mem_filter.mpr ⟨hi, hc⟩
    rw [hnew] at this
    exact absurd this (List.not_mem_nil i)
  constructor
  · unfold add_to_favorite_list
    simp only [hnonempty, Bool.false_eq_true, if_false, hpick]
    rw [if_neg (by rw [hnoany]; simp)]
  · unfold includeCount at hnew ⊢
    simp only [List.filter_append] at *
    rw [List.length_append, hnew]
    simp

/-- Witness for favorite_add_no_check: tweet id 99 does not exist in the
concrete database, yet the membership row is inserted and success reported. -/
theorem favorite_add_no_check_witness :
    add_to_favorite_list
      (DB.mk [] [⟨1, 1, "t", "d", "m", none⟩] [] [] [] [⟨1, "fav"⟩] []) 1 99 0 =
      (.added, DB.mk [] [⟨1, 1, "t", "d", "m", none⟩] [] [] [] [⟨1, "fav"⟩]
        [⟨1, "fav", 99⟩]) := by
  have h := favorite_add_no_check
    (DB.mk [] [⟨1, 1, "t", "d", "m", none⟩] [] [] [] [⟨1, "fav"⟩] [])
    1 99 0 "fav" (by decide) (by decide) (by decide)
  exact h.1

/-- Outcome of retweet (src/main.py:706). -/
inductive RetweetOutcome
  | alreadyRetweeted
  | notFound
  | posted
deriving DecidableEq

/-- SELECT COUNT(*) FROM retweets WHERE tid = ? AND retweeter_id = ?
(src/main.py:730). -/
def pairRetweetCount (db : DB) (tid usr : Nat) : Nat :=
  (db.retweets.filter (fun r => r.tid == tid && r.retweeter_id == usr)).length

/-- SELECT COUNT(*) FROM retweets WHERE tid = ? — the retweet count shown by
view_tweet_statistics (src/main.py:520). -/
def retweetCount (db : DB) (tid : Nat) : Nat :=
  (db.retweets.filter (fun r => r.tid == tid)).length

/-- retweet (src/main.py:706-765): first report a no-op if the (tid, usr)
pair is already in retweets; then report not-found if no tweets row has this
tid (SELECT writer_id FROM tweets WHERE tid = ?, fetchone takes the first
matching row); otherwise INSERT (tid, usr, writer_id, 0, rdate), copying the
original writer id into the new row. -/
def retweet (db : DB) (tid usr : Nat) (rdate : String) : RetweetOutcome × DB :=
  if 0 < pairRetweetCount db tid usr then (.alreadyRetweeted, db)
  else
    match (db.tweets.filter (fun t => t.tid == tid)).head? with
    | none => (.notFound, db)
    | some t =>
      (.posted, { db with retweets := db.retweets ++ [⟨tid, usr, t.writer_id, 0, rdate⟩] })

/-- C4: Retweet admission.  Under the data-model invariant that every
retweets row references an existing tweet: a nonexistent target id yields
not-found with no write; an existing (tid, retweeter) pair yields a no-op
with no write; and from a state with no retweets of the target, a first
retweet inserts exactly one row carrying spam 0, the given current date and
the original writer id, after which the count for the tweet is 1 and a
repeated call is a no-op that leaves the count at 1. -/
theorem retweet_admission (db : DB) (tid usr : Nat) (d1 d2 : String) (t : TweetRow)
    (href : ∀ r ∈ db.retweets, ∃ tw ∈ db.tweets, tw.tid = r.tid) :
    ((∀ tw ∈ db.tweets, tw.tid ≠ tid) → retweet db tid usr d1 = (.notFound, db))
    ∧ (0 < pairRetweetCount db tid usr → retweet db tid usr d1 = (.alreadyRetweeted, db))
    ∧ (retweetCount db tid = 0 →
        (db.tweets.filter (fun tw => tw.tid == tid)).head? = some t →
        retweet db tid usr d1 =
          (.posted, { db with retweets := db.retweets ++ [⟨tid, usr, t.writer_id, 0, d1⟩] })
        ∧ retweetCount { db with retweets := db.retweets ++ [⟨tid, usr, t.writer_id, 0, d1⟩] } tid = 1
        ∧ retweet { db with retweets := db.retweets ++ [⟨tid, usr, t.writer_id, 0, d1⟩] } tid usr d2 =
          (.alreadyRetweeted, { db with retweets := db.retweets ++ [⟨tid, usr, t.writer_id, 0, d1⟩] })) := by
  refine ⟨?_, ?_, ?_⟩
  · intro habsent
    have hpair : pairRetweetCount db tid usr = 0 := by
      unfold pairRetweetCount
      rw [List.length_eq_zero, List.filter_eq_nil]
      intro r hr hc
      simp only [Bool.and_eq_true, beq_iff_eq] at hc
      rcases href r hr with ⟨tw, htw, he⟩
      exact habsent tw htw (he.trans hc.1)
    have hhead : (db.tweets.filter (fun t => t.tid == tid)).head? = none := by
      rw [List.head?_eq_none_iff, List.filter_eq_nil]
      intro tw htw hc
      simp only [beq_iff_eq] at hc
      exact habsent tw htw hc
    unfold retweet
    rw [if_neg (by omega), hhead]
  · intro hpos
    unfold retweet
    rw [if_pos hpos]
  · intro hzero hhead
    have hpair : pairRetweetCount db tid usr = 0 := by
      unfold pairRetweetCount
      unfold retweetCount at hzero
      rw [List.length_eq_zero] at hzero
      rw [List.length_eq_zero, List.filter_eq_nil]
      intro r hr hc
      simp only [Bool.and_eq_true, beq_iff_eq] at hc
      have : r ∈ db.retweets.filter (fun r => r.tid == tid) :=
        List.mem_filter.mpr ⟨hr, by simp [hc.1]⟩
      rw [hzero] at this
      exact absurd this (List.not_mem_nil r)
    refine ⟨?_, ?_, ?_⟩
    · unfold retweet
      rw [if_neg (by omega), hhead]
    · unfold retweetCount at hzero ⊢
      simp only [List.filter_append] at *
      rw [List.length_append, hzero]
      simp
    · unfold retweet
      rw [if_pos]
      unfold pairRetweetCount
      simp only [List.filter_append]
      rw [List.length_append]
      simp

/-- Witness for retweet_admission: user 2 retweets tweet 1 twice in a small
concrete database; one row with spam 0 and the original writer id results,
and the duplicate call is a no-op.  A retweet of the absent id 9 is
not-found. -/
theorem retweet_admission_witness :
    retweet (DB.mk [] [⟨1, 7, "t", "2024-01-01", "10:00:00", none⟩] [] [] [] [] [])
        1 2 "2024-02-01" =
      (.posted, DB.mk [] [⟨1, 7, "t", "2024-01-01", "10:00:00", none⟩]
        [⟨1, 2, 7, 0, "2024-02-01"⟩] [] [] [] [])
    ∧ retweetCount (DB.mk [] [⟨1, 7, "t", "2024-01-01", "10:00:00", none⟩]
        [⟨1, 2, 7, 0, "2024-02-01"⟩] [] [] [] []) 1 = 1
    ∧ retweet (DB.mk [] [⟨1, 7, "t", "2024-01-01", "10:00:00", none⟩]
        [⟨1, 2, 7, 0, "2024-02-01"⟩] [] [] [] []) 1 2 "2024-02-02" =
      (.alreadyRetweeted, DB.mk [] [⟨1, 7, "t", "2024-01-01", "10:00:00", none⟩]
        [⟨1, 2, 7, 0, "2024-02-01"⟩] [] [] [] [])
    ∧ retweet (DB.mk [] [⟨1, 7, "t", "2024-01-01", "10:00:00", none⟩] [] [] [] [] [])
        9 2 "2024-02-01" =
      (.notFound, DB.mk [] [⟨1, 7, "t", "2024-01-01", "10:00:00", none⟩] [] [] [] [] []) := by
  have h := retweet_admission
    (DB.mk [] [⟨1, 7, "t", "2024-01-01", "10:00:00", none⟩] [] [] [] [] [])
    1 2 "2024-02-01" "2024-02-02" ⟨1, 7, "t", "2024-01-01", "10:00:00", none⟩
    (by intro r hr; simp at hr)
  have h9 := retweet_admission
    (DB.mk [] [⟨1, 7, "t", "2024-01-01", "10:00:00", none⟩] [] [] [] [] [])
    9 2 "2024-02-01" "2024-02-02" ⟨1, 7, "t", "2024-01-01", "10:00:00", none⟩
    (by intro r hr; simp at hr)
  have hmain := h.2.2 (by decide) (by decide)
  exact ⟨hmain.1, hmain.2.1, hmain.2.2, h9.1 (by decide)⟩

/-- Word-character test of the Python regex class \w over ASCII text:
letters, digits and underscore. -/
def isWordChar (c : Char) : Bool := c.isAlphanum || c == '_'

/-- Hashtag extraction of compose_tweet (src/main.py:813):
re.findall of the pattern hash-sign-then-word-chars over the lowercased
text, scanning left to right and taking each maximal word-character run
after a hash sign (runs of length zero are not matches). -/
def findHashtags : List Char → List (List Char)
  | [] => []
  | ['#'] => []
  | '#' :: c :: rest =>
      if isWordChar c then
        ('#' :: c :: rest.takeWhile isWordChar) :: findHashtags (rest.dropWhile isWordChar)
      else findHashtags (c :: rest)
  | _ :: rest => findHashtags rest
termination_by cs => cs.length
decreasing_by
  · simp only [List.length_cons]
    have h : (rest.dropWhile isWordChar).Sublist rest := List.dropWhile_sublist isWordChar
    have := h.length_le
    omega
  · simp
  · simp

theorem findHashtags_shape (cs : List Char) :
    ∀ tag ∈ findHashtags cs, ∃ tl, tag = '#' :: tl := by
  induction cs using findHashtags.induct with
  | case1 =>
    intro tag h
    simp [findHashtags] at h
  | case2 =>
    intro tag h
    simp [findHashtags] at h
  | case3 c rest hw ih =>
    intro tag h
    rw [findHashtags, if_pos hw] at h
    rcases List.mem_cons.mp h with he | hm
    · exact ⟨c :: rest.takeWhile isWordChar, he⟩
    · exact ih tag hm
  | case4 c rest hw ih =>
    intro tag h
    rw [findHashtags, if_neg hw] at h
    exact ih tag h
  | case5 hd rest h1 h2 ih =>
    intro tag h
    rw [findHashtags.eq_4 hd rest h1 h2] at h
    exact ih tag h

theorem le_of_mem_max? : ∀ {l : List Nat} {a m : Nat}, a ∈ l → l.max? = some m → a ≤ m := by
  intro l
  induction l with
  | nil =>
    intro a m h hm
    simp at h
  | cons x xs ih =>
    intro a m ha hm
    rw [List.max?_cons] at hm
    injection hm with hm
    rcases List.mem_cons.mp ha with he | ha
    · subst he
      cases hx : xs.max? with
      | none => rw [hx] at hm; simp [Option.elim] at hm; omega
      | some mx =>
        rw [hx] at hm
        simp [Option.elim] at hm
        subst hm
        exact le_max_left a mx
    · cases hx : xs.max? with
      | none =>
        rw [List.max?_eq_none_iff] at hx
        subst hx
        simp at ha
      | some mx =>
        have hle := ih ha hx
        rw [hx] at hm
        simp [Option.elim] at hm
        subst hm
        exact le_trans hle (le_max_right x mx)

/-- Every existing tweet id is below the next assigned id, so the new row is
fresh. -/
theorem get_new_tid_gt (db : DB) : ∀ t ∈ db.tweets, t.tid < get_new_tid db := by
  intro t ht
  unfold get_new_tid tweetsMax
  cases hx : (db.tweets.map (fun t => t.tid)).max? with
  | none =>
    rw [List.max?_eq_none_iff, List.map_eq_nil_iff] at hx
    rw [hx] at ht
    simp at ht
  | some m =>
    have : t.tid ≤ m := le_of_mem_max? (List.mem_map_of_mem (fun t => t.tid) ht) hx
    show t.tid < m + 1
    omega

/-- Execution of a sequence of write statements inside one SQLite
transaction, as produced by a Python with-block over a connection: the
statements run in order; if statement k (or, at k = length, the final
commit) raises, the remaining statements are skipped and the with-block
exit rolls the transaction back (result none); otherwise the accumulated
state is committed.  failAt names the index of the first failing statement,
none meaning no storage failure occurs. -/
def txRun : Option Nat → List (DB → DB) → DB → Option DB
  | some 0, _, _ => none
  | some (_ + 1), [], db => some db
  | none, [], db => some db
  | some (k + 1), s :: rest, db => txRun (some k) rest (s db)
  | none, s :: rest, db => txRun none rest (s db)

theorem txRun_none (steps : List (DB → DB)) (db : DB) :
    txRun none steps db = some (steps.foldl (fun d s => s d) db) := by
  induction steps generalizing db with
  | nil => rfl
  | cons s rest ih => simp [txRun, List.foldl_cons, ih]

theorem txRun_fail {k : Nat} (steps : List (DB → DB)) (db : DB)
    (h : k ≤ steps.length) : txRun (some k) steps db = none := by
  induction steps generalizing k db with
  | nil =>
    cases k with
    | zero => rfl
    | succ k => simp at h
  | cons s rest ih =>
    cases k with
    | zero => rfl
    | succ k =>
      simp only [List.length_cons] at h
      exact ih (s db) (by omega)

theorem txRun_past {k : Nat} (steps : List (DB → DB)) (db : DB)
    (h : steps.length < k) :
    txRun (some k) steps db = some (steps.foldl (fun d s => s d) db) := by
  induction steps generalizing k db with
  | nil =>
    cases k with
    | zero => simp at h
    | succ k => rfl
  | cons s rest ih =>
    cases k with
    | zero => simp at h
    | succ k =>
      simp only [List.length_cons] at h
      simp only [txRun, List.foldl_cons]
      exact ih (s db) (by omega)

/-- Outcome of compose_tweet (src/main.py:783). -/
inductive ComposeOutcome
  | emptyText
  | dupHashtag
  | storageError
  | posted
deriving DecidableEq

/-- The tweets row inserted by compose_tweet (src/main.py:834):
(tid, writer, text, tdate, ttime, NULL). -/
def new_tweet_row (tid usr : Nat) (text tdate ttime : String) : TweetRow :=
  ⟨tid, usr, text, tdate, ttime, none⟩

/-- The hashtag_mentions rows inserted by compose_tweet (src/main.py:840):
one row per unique extracted hashtag, with the leading hash sign removed. -/
def mention_rows (tid : Nat) (tags : List (List Char)) : List MentionRow :=
  tags.dedup.map (fun tag => ⟨tid, String.mk (tag.drop 1)⟩)

/-- The duplicated-hashtag list of compose_tweet (src/main.py:816): every
extracted hashtag occurring more than once in the extraction list. -/
def dup_hashtags (tags : List (List Char)) : List (List Char) :=
  tags.filter (fun tag => decide (1 < tags.count tag))

theorem nodup_iff_count_le_one_beq {α : Type} [BEq α] [LawfulBEq α] (l : List α) :
    (∀ a ∈ l, l.count a ≤ 1) ↔ l.Nodup := by
  induction l with
  | nil => simp
  | cons x xs ih =>
    simp only [List.nodup_cons]
    constructor
    · intro h
      constructor
      · intro hmem
        have h1 := h x (List.mem_cons_self x xs)
        rw [List.count_cons_self] at h1
        have h2 : 0 < xs.count x := List.count_pos_iff.mpr hmem
        omega
      · apply ih.mp
        intro a ha
        have := h a (List.mem_cons_of_mem x ha)
        rw [List.count_cons] at this
        omega
    · rintro ⟨hx, hnd⟩
      intro a ha
      rw [List.count_cons]
      rcases List.mem_cons.mp ha with he | hmem
      · subst he
        have h0 : xs.count a = 0 := by
          rw [List.count_eq_zero]
          exact hx
        simp [h0]
      · have h1 := ih.mpr hnd a hmem
        have hne : ¬ (x == a) = true := by
          intro hc
          have he : x = a := by simpa using hc
          subst he
          exact hx hmem
        have hne2 : ¬ (a == x) = true := by
          intro hc
          have he : a = x := by simpa using hc
          subst he
          exact hx hmem
        simp [hne, hne2]
        omega

theorem dup_hashtags_eq_nil_iff (tags : List (List Char)) :
    dup_hashtags tags = [] ↔ tags.Nodup := by
  unfold dup_hashtags
  rw [List.filter_eq_nil_iff]
  constructor
  · intro h
    apply (nodup_iff_count_le_one_beq tags).mp
    intro a ha
    have := h a ha
    simp only [decide_eq_true_eq] at this
    omega
  · intro h a ha
    have := (nodup_iff_count_le_one_beq tags).mpr h a ha
    simp only [decide_eq_true_eq]
    omega

/-- The statement sequence of one compose_tweet transaction
(src/main.py:826-846): the id-assigning SELECT MAX (a read), the tweets
INSERT, then one hashtag_mentions INSERT per unique extracted hashtag. -/
def compose_steps (db : DB) (usr : Nat) (text tdate ttime : String)
    (tags : List (List Char)) : List (DB → DB) :=
  (fun d => d) ::
  (fun d => { d with
    tweets := d.tweets ++ [new_tweet_row (get_new_tid db) usr text tdate ttime] }) ::
  tags.dedup.map (fun tag => fun d =>
    { d with hashtag_mentions :=
        d.hashtag_mentions ++ [⟨get_new_tid db, String.mk (tag.drop 1)⟩] })

/-- compose_tweet (src/main.py:783-850) with an explicit storage-failure
oracle: reject empty text before any storage access; extract hashtags from
the lowercased text and reject the whole composition when one repeats;
otherwise run the insert sequence in one transaction, which either commits
in full or rolls back to the initial state, surfacing a single storage
error. -/
def compose_tweet_fx (failAt : Option Nat) (db : DB) (usr : Nat)
    (text tdate ttime : String) : ComposeOutcome × DB :=
  if text = "" then (.emptyText, db)
  else
    let tags := findHashtags (strLower text).data
    if dup_hashtags tags ≠ [] then (.dupHashtag, db)
    else
      match txRun failAt (compose_steps db usr text tdate ttime tags) db with
      | none => (.storageError, db)
      | some db2 => (.posted, db2)

/-- compose_tweet in the reference run without storage failures. -/
def compose_tweet (db : DB) (usr : Nat) (text tdate ttime : String) :
    ComposeOutcome × DB :=
  compose_tweet_fx none db usr text tdate ttime

theorem mention_fold (tid : Nat) (ts : List (List Char)) (d : DB) :
    (ts.map (fun tag => fun d2 : DB =>
      { d2 with hashtag_mentions :=
          d2.hashtag_mentions ++ [⟨tid, String.mk (tag.drop 1)⟩] })).foldl
      (fun d s => s d) d
    = { d with hashtag_mentions :=
        d.hashtag_mentions ++ ts.map (fun tag => (⟨tid, String.mk (tag.drop 1)⟩ : MentionRow)) } := by
  induction ts generalizing d with
  | nil => simp
  | cons tag ts ih =>
    simp only [List.map_cons, List.foldl_cons]
    rw [ih]
    simp [List.append_assoc]

theorem compose_fold (db : DB) (usr : Nat) (text tdate ttime : String)
    (tags : List (List Char)) :
    (compose_steps db usr text tdate ttime tags).foldl (fun d s => s d) db =
      { db with
        tweets := db.tweets ++ [new_tweet_row (get_new_tid db) usr text tdate ttime],
        hashtag_mentions := db.hashtag_mentions ++ mention_rows (get_new_tid db) tags } := by
  unfold compose_steps mention_rows
  simp only [List.foldl_cons]
  rw [mention_fold]

theorem compose_fx_unfold (failAt : Option Nat) (db : DB) (usr : Nat)
    (text tdate ttime : String) (htext : text ≠ "")
    (hnd : (findHashtags (strLower text).data).Nodup) :
    compose_tweet_fx failAt db usr text tdate ttime =
      match txRun failAt
          (compose_steps db usr text tdate ttime (findHashtags (strLower text).data)) db with
      | none => (.storageError, db)
      | some db2 => (.posted, db2) := by
  have hdup : dup_hashtags (findHashtags (strLower text).data) = [] :=
    (dup_hashtags_eq_nil_iff _).mpr hnd
  unfold compose_tweet_fx
  rw [if_neg htext, if_neg (by simp [hdup])]

theorem compose_happy (db : DB) (usr : Nat) (text tdate ttime : String)
    (htext : text ≠ "") (hnd : (findHashtags (strLower text).data).Nodup) :
    compose_tweet db usr text tdate ttime =
      (.posted, { db with
        tweets := db.tweets ++ [new_tweet_row (get_new_tid db) usr text tdate ttime],
        hashtag_mentions := db.hashtag_mentions ++
          mention_rows (get_new_tid db) (findHashtags (strLower text).data) }) := by
  unfold compose_tweet
  rw [compose_fx_unfold none db usr text tdate ttime htext hnd, txRun_none, compose_fold]

/-- C5: Composing a tweet whose lowercased text yields the same hashtag twice
is rejected with no rows written; with pairwise distinct extracted hashtags
the composition succeeds, appending the tweet row and exactly one
hashtag-mention row per distinct term, each term taken from the lowercased
text with the leading hash sign stripped. -/
theorem compose_hashtag_rules (db : DB) (usr : Nat) (text tdate ttime : String)
    (htext : text ≠ "") :
    (¬ (findHashtags (strLower text).data).Nodup →
      compose_tweet db usr text tdate ttime = (.dupHashtag, db))
    ∧ ((findHashtags (strLower text).data).Nodup →
        compose_tweet db usr text tdate ttime =
          (.posted, { db with
            tweets := db.tweets ++ [new_tweet_row (get_new_tid db) usr text tdate ttime],
            hashtag_mentions := db.hashtag_mentions ++
              mention_rows (get_new_tid db) (findHashtags (strLower text).data) })
        ∧ (mention_rows (get_new_tid db) (findHashtags (strLower text).data)).Nodup
        ∧ (∀ tag ∈ findHashtags (strLower text).data,
            (mention_rows (get_new_tid db) (findHashtags (strLower text).data)).count
              ⟨get_new_tid db, String.mk (tag.drop 1)⟩ = 1)
        ∧ (∀ row ∈ mention_rows (get_new_tid db) (findHashtags (strLower text).data),
            ∃ tag ∈ findHashtags (strLower text).data,
              row = ⟨get_new_tid db, String.mk (tag.drop 1)⟩)) := by
  constructor
  · intro hnd
    have hdup : dup_hashtags (findHashtags (strLower text).data) ≠ [] := by
      rw [Ne, dup_hashtags_eq_nil_iff]
      exact hnd
    unfold compose_tweet compose_tweet_fx
    rw [if_neg htext, if_pos hdup]
  · intro hnd
    have hshape := findHashtags_shape (strLower text).data
    have hnodup : (mention_rows (get_new_tid db) (findHashtags (strLower text).data)).Nodup := by
      unfold mention_rows
      apply List.Nodup.map_on
      · intro x hx y hy hxy
        rcases hshape x (List.mem_dedup.mp hx) with ⟨xtl, hxe⟩
        rcases hshape y (List.mem_dedup.mp hy) with ⟨ytl, hye⟩
        subst hxe
        subst hye
        simp only [MentionRow.mk.injEq, List.drop_succ_cons,
          List.drop_zero, true_and] at hxy
        have hdata : xtl = ytl := congrArg String.data hxy
        rw [hdata]
      · exact List.nodup_dedup _
    refine ⟨compose_happy db usr text tdate ttime htext hnd, hnodup, ?_, ?_⟩
    · intro tag htag
      apply List.count_eq_one_of_mem hnodup
      unfold mention_rows
      exact List.mem_map_of_mem _ (List.mem_dedup.mpr htag)
    · intro row hrow
      unfold mention_rows at hrow
      rcases List.mem_map.mp hrow with ⟨tag, htag, he⟩
      exact ⟨tag, List.mem_dedup.mp htag, he.symm⟩

/-- Witness for compose_hashtag_rules: the text with hashtags hash-Go and
hash-go (a case-insensitive duplicate) is rejected leaving the database
unchanged, while the text with hashtags hash-go and hash-rust is stored with
exactly the two lowercase mention rows go and rust. -/
theorem compose_hashtag_rules_witness :
    compose_tweet (DB.mk [] [] [] [] [] [] []) 1 "#Go #go" "2024-01-01" "10:00:00" =
      (.dupHashtag, DB.mk [] [] [] [] [] [] [])
    ∧ compose_tweet (DB.mk [] [] [] [] [] [] []) 1 "#go #rust" "2024-01-01" "10:00:00" =
      (.posted, DB.mk [] [⟨1, 1, "#go #rust", "2024-01-01", "10:00:00", none⟩] [] []
        [⟨1, "go"⟩, ⟨1, "rust"⟩] [] []) := by
  have e1 : findHashtags (strLower "#Go #go").data = [['#', 'g', 'o'], ['#', 'g', 'o']] := by
    simp [strLower, findHashtags, lowerChar, isWordChar, List.takeWhile, List.dropWhile,
      Char.ofNat, Nat.isValidChar]
  have e2 : findHashtags (strLower "#go #rust").data =
      [['#', 'g', 'o'], ['#', 'r', 'u', 's', 't']] := by
    simp [strLower, findHashtags, lowerChar, isWordChar, List.takeWhile, List.dropWhile,
      Char.ofNat, Nat.isValidChar]
  constructor
  · apply (compose_hashtag_rules (DB.mk [] [] [] [] [] [] []) 1 "#Go #go"
      "2024-01-01" "10:00:00" (by decide)).1
    rw [e1]
    decide
  · have h := ((compose_hashtag_rules (DB.mk [] [] [] [] [] [] []) 1 "#go #rust"
      "2024-01-01" "10:00:00" (by decide)).2 (by rw [e2]; decide)).1
    rw [h, e2]
    decide

/-- C9: Tweet composition is atomic with respect to storage failure.  For
every failure oracle the resulting state is either the initial one or the
fully committed one; a failure at any statement of the insert sequence (or at
the commit) aborts the remaining statements, reports a storage error and
leaves the initial state; and in every reachable final state the new tweet
row is present only together with all of its hashtag-mention rows. -/
theorem compose_atomic (db : DB) (usr : Nat) (text tdate ttime : String)
    (failAt : Option Nat) (htext : text ≠ "")
    (hnd : (findHashtags (strLower text).data).Nodup) :
    ((compose_tweet_fx failAt db usr text tdate ttime).2 = db
      ∨ compose_tweet_fx failAt db usr text tdate ttime =
          compose_tweet db usr text tdate ttime)
    ∧ (∀ k, failAt = some k →
        k ≤ (compose_steps db usr text tdate ttime (findHashtags (strLower text).data)).length →
        compose_tweet_fx failAt db usr text tdate ttime = (.storageError, db))
    ∧ (∀ t ∈ (compose_tweet_fx failAt db usr text tdate ttime).2.tweets,
        t.tid = get_new_tid db →
        ∀ tag ∈ findHashtags (strLower text).data,
          (⟨get_new_tid db, String.mk (tag.drop 1)⟩ : MentionRow) ∈
            (compose_tweet_fx failAt db usr text tdate ttime).2.hashtag_mentions) := by
  have hfail : ∀ k, failAt = some k →
      k ≤ (compose_steps db usr text tdate ttime (findHashtags (strLower text).data)).length →
      compose_tweet_fx failAt db usr text tdate ttime = (.storageError, db) := by
    intro k hk hlen
    subst hk
    rw [compose_fx_unfold (some k) db usr text tdate ttime htext hnd,
      txRun_fail _ db hlen]
  have hstates : (compose_tweet_fx failAt db usr text tdate ttime).2 = db
      ∨ compose_tweet_fx failAt db usr text tdate ttime =
          compose_tweet db usr text tdate ttime := by
    cases failAt with
    | none => exact Or.inr rfl
    | some k =>
      by_cases hlen :
          k ≤ (compose_steps db usr text tdate ttime (findHashtags (strLower text).data)).length
      · rw [hfail k rfl hlen]
        exact Or.inl rfl
      · right
        rw [compose_fx_unfold (some k) db usr text tdate ttime htext hnd,
          txRun_past _ db (by omega),
          compose_happy db usr text tdate ttime htext hnd, compose_fold]
  refine ⟨hstates, hfail, ?_⟩
  intro t ht htid tag htag
  rcases hstates with hrb | hcommit
  · rw [hrb] at ht
    have := get_new_tid_gt db t ht
    omega
  · rw [hcommit, compose_happy db usr text tdate ttime htext hnd]
    show _ ∈ db.hashtag_mentions ++
      mention_rows (get_new_tid db) (findHashtags (strLower text).data)
    apply List.mem_append_right
    unfold mention_rows
    exact List.mem_map_of_mem _ (List.mem_dedup.mpr htag)

/-- Witness for compose_atomic: with a storage failure at the hashtag-mention
insert (statement index 2), composing the text hash-go leaves the empty
database untouched and reports a storage error, so no tweet row survives
without its mention row. -/
theorem compose_atomic_witness :
    compose_tweet_fx (some 2) (DB.mk [] [] [] [] [] [] []) 1 "#go"
      "2024-01-01" "10:00:00" =
      (.storageError, DB.mk [] [] [] [] [] [] []) := by
  have e : findHashtags (strLower "#go").data = [['#', 'g', 'o']] := by
    simp [strLower, findHashtags, lowerChar, isWordChar, List.takeWhile, List.dropWhile,
      Char.ofNat, Nat.isValidChar]
  have h := compose_atomic (DB.mk [] [] [] [] [] [] []) 1 "#go" "2024-01-01" "10:00:00"
    (some 2) (by decide) (by rw [e]; decide)
  apply h.2.1 2 rfl
  rw [e]
  decide

/-- One row of the feed query of show_feed (src/main.py:231-246): type tag,
tweet id, date, time-of-day, spam flag and displayed text. -/
structure FeedRow where
  rtype : String
  tid : Nat
  tdate : String
  ttime : String
  spam : Nat
  text : String
deriving DecidableEq

/-- SELECT flwee FROM follows WHERE flwer = ? (the IN-subquery of the feed). -/
def followees (db : DB) (usr : Nat) : List Nat :=
  (db.follows.filter (fun f => f.flwer == usr)).map (fun f => f.flwee)

/-- Projection of the first UNION arm: an original tweet shown with its own
date, time and text, and a constant 0 spam column. -/
def tweetFeedRow (t : TweetRow) : FeedRow :=
  ⟨"tweet", t.tid, t.tdate, t.ttime, 0, t.text⟩

/-- Projection of the second UNION arm: a retweet shown with the original
tweet's text but the retweet's own date and an empty time-of-day column. -/
def retweetFeedRow (r : RetweetRow) (t : TweetRow) : FeedRow :=
  ⟨"retweet", r.tid, r.rdate, "", r.spam, t.text⟩

/-- First arm of the feed UNION ALL: tweets whose writer the viewer follows. -/
def feed_tweet_rows (db : DB) (usr : Nat) : List FeedRow :=
  (db.tweets.filter (fun t => (followees db usr).contains t.writer_id)).map tweetFeedRow

/-- Second arm of the feed UNION ALL: retweets joined back to tweets on tid,
restricted to followed retweeters and spam = 0. -/
def feed_retweet_rows (db : DB) (usr : Nat) : List FeedRow :=
  db.retweets.flatMap (fun r =>
    if (followees db usr).contains r.retweeter_id && r.spam == 0 then
      (db.tweets.filter (fun t => t.tid == r.tid)).map (retweetFeedRow r)
    else [])

/-- The ORDER BY tdate DESC, ttime DESC relation of the feed query: row a may
precede row b when b's date is below a's, or the dates tie and b's time is at
most a's, both compared as SQLite TEXT. -/
@[reducible] def feedOrder (a b : FeedRow) : Prop :=
  lexLt b.tdate.data a.tdate.data = true
  ∨ (b.tdate = a.tdate ∧ lexLe b.ttime.data a.ttime.data = true)

instance : DecidableRel feedOrder := fun a b =>
  inferInstanceAs (Decidable (_ ∨ _))

instance : IsTotal FeedRow feedOrder := by
  constructor
  intro a b
  rcases lexLt_total b.tdate.data a.tdate.data with h | h | h
  · exact Or.inl (Or.inl h)
  · have he : b.tdate = a.tdate := String.ext h
    rcases lexLe_total b.ttime.data a.ttime.data with h' | h'
    · exact Or.inl (Or.inr ⟨he, h'⟩)
    · exact Or.inr (Or.inr ⟨he.symm, h'⟩)
  · exact Or.inr (Or.inl h)

instance : IsTrans FeedRow feedOrder := by
  constructor
  intro a b c hab hbc
  rcases hab with h1 | ⟨e1, h1⟩
  · rcases hbc with h2 | ⟨e2, h2⟩
    · exact Or.inl (lexLt_trans h2 h1)
    · exact Or.inl (by rw [e2]; exact h1)
  · rcases hbc with h2 | ⟨e2, h2⟩
    · exact Or.inl (by rw [← e1]; exact h2)
    · exact Or.inr ⟨e2.trans e1, lexLe_trans h2 h1⟩

/-- The full ordered feed stream of show_feed (src/main.py:231-246): the
UNION ALL of the two arms sorted by the ORDER BY key. -/
def show_feed_all (db : DB) (usr : Nat) : List FeedRow :=
  List.insertionSort feedOrder (feed_tweet_rows db usr ++ feed_retweet_rows db usr)

/-- One page of the feed: LIMIT 5 OFFSET k (src/main.py:246). -/
def show_feed_page (db : DB) (usr : Nat) (offset : Nat) : List FeedRow :=
  ((show_feed_all db usr).drop offset).take 5

/-- C1: The feed contains exactly the original tweets authored by followed
users and the non-spam retweets performed by followed users, where a retweet
entry shows the original tweet's text but the retweet's own date and an
empty time-of-day field; spam retweets contribute nothing. -/
theorem feed_contents_exact (db : DB) (usr : Nat) (r : FeedRow) :
    r ∈ show_feed_all db usr ↔
      ((∃ t ∈ db.tweets, t.writer_id ∈ followees db usr ∧ r = tweetFeedRow t)
        ∨ (∃ rt ∈ db.retweets, rt.retweeter_id ∈ followees db usr ∧ rt.spam = 0 ∧
            ∃ t ∈ db.tweets, t.tid = rt.tid ∧ r = retweetFeedRow rt t)) := by
  unfold show_feed_all
  rw [(List.perm_insertionSort feedOrder _).mem_iff, List.mem_append]
  unfold feed_tweet_rows feed_retweet_rows
  constructor
  · rintro (h | h)
    · rcases List.mem_map.mp h with ⟨t, ht, he⟩
      rcases List.mem_filter.mp ht with ⟨htm, hcond⟩
      refine Or.inl ⟨t, htm, ?_, he.symm⟩
      simpa using hcond
    · rcases List.mem_flatMap.mp h with ⟨rt, hrt, hr⟩
      by_cases hcond : ((followees db usr).contains rt.retweeter_id && rt.spam == 0) = true
      · rw [if_pos hcond] at hr
        rcases List.mem_map.mp hr with ⟨t, ht, he⟩
        rcases List.mem_filter.mp ht with ⟨htm, htid⟩
        simp only [Bool.and_eq_true, beq_iff_eq] at hcond htid
        refine Or.inr ⟨rt, hrt, ?_, hcond.2, t, htm, htid, he.symm⟩
        simpa using hcond.1
      · rw [if_neg hcond] at hr
        simp at hr
  · rintro (⟨t, htm, hf, he⟩ | ⟨rt, hrt, hf, hspam, t, htm, htid, he⟩)
    · apply Or.inl
      subst he
      apply List.mem_map_of_mem
      apply List.mem_filter.mpr
      refine ⟨htm, ?_⟩
      simpa using hf
    · apply Or.inr
      subst he
      apply List.mem_flatMap.mpr
      refine ⟨rt, hrt, ?_⟩
      rw [if_pos]
      · apply List.mem_map_of_mem
        apply List.mem_filter.mpr
        refine ⟨htm, ?_⟩
        simp [htid]
      · simp only [Bool.and_eq_true, beq_iff_eq]
        refine ⟨?_, hspam⟩
        simpa using hf

/-- C2: Feed entries are ordered by date descending, then time-of-day
descending, and on a date tie an entry with the empty time field (a retweet)
sorts after every timed entry of that date: the empty TEXT value is the
minimum of the byte-wise order, so under the descending sort any entry
following an untimed entry of the same date is untimed as well. -/
theorem feed_ordering (db : DB) (usr : Nat) (i j : Nat) (hij : i < j)
    (hj : j < (show_feed_all db usr).length) :
    feedOrder ((show_feed_all db usr).get ⟨i, Nat.lt_trans hij hj⟩)
      ((show_feed_all db usr).get ⟨j, hj⟩)
    ∧ lexLe ((show_feed_all db usr).get ⟨j, hj⟩).tdate.data
        ((show_feed_all db usr).get ⟨i, Nat.lt_trans hij hj⟩).tdate.data = true
    ∧ (((show_feed_all db usr).get ⟨j, hj⟩).tdate =
        ((show_feed_all db usr).get ⟨i, Nat.lt_trans hij hj⟩).tdate →
      lexLe ((show_feed_all db usr).get ⟨j, hj⟩).ttime.data
        ((show_feed_all db usr).get ⟨i, Nat.lt_trans hij hj⟩).ttime.data = true)
    ∧ (((show_feed_all db usr).get ⟨j, hj⟩).tdate =
        ((show_feed_all db usr).get ⟨i, Nat.lt_trans hij hj⟩).tdate →
      ((show_feed_all db usr).get ⟨i, Nat.lt_trans hij hj⟩).ttime = "" →
      ((show_feed_all db usr).get ⟨j, hj⟩).ttime = "") := by
  have hsorted : List.Sorted feedOrder (show_feed_all db usr) :=
    List.sorted_insertionSort feedOrder _
  have h1 : feedOrder ((show_feed_all db usr).get ⟨i, Nat.lt_trans hij hj⟩)
      ((show_feed_all db usr).get ⟨j, hj⟩) :=
    hsorted.rel_get_of_lt hij
  have htimes : ((show_feed_all db usr).get ⟨j, hj⟩).tdate =
      ((show_feed_all db usr).get ⟨i, Nat.lt_trans hij hj⟩).tdate →
      lexLe ((show_feed_all db usr).get ⟨j, hj⟩).ttime.data
        ((show_feed_all db usr).get ⟨i, Nat.lt_trans hij hj⟩).ttime.data = true := by
    intro hdate
    rcases h1 with h | ⟨_, ht⟩
    · rw [hdate, lexLt_irrefl] at h
      cases h
    · exact ht
  refine ⟨h1, ?_, htimes, ?_⟩
  · rcases h1 with h | ⟨he, _⟩
    · exact lexLe_of_lexLt h
    · rw [he]
      exact lexLe_refl _
  · intro hdate hempty
    have hle := htimes hdate
    rw [hempty] at hle
    have hnil : ((show_feed_all db usr).get ⟨j, hj⟩).ttime.data = [] :=
      lexLe_nil_right hle
    exact String.ext hnil

/-- Witness for feed_ordering: viewer 1 follows user 2; on a shared date the
timed tweets precede the two untimed retweets, and after an untimed entry
every same-date entry is untimed. -/
theorem feed_ordering_witness :
    feedOrder
      ((show_feed_all (DB.mk []
        [⟨5, 2, "a", "2024-03-01", "09:00:00", none⟩,
         ⟨6, 2, "b", "2024-03-01", "08:00:00", none⟩,
         ⟨7, 3, "c", "2024-01-01", "07:00:00", none⟩]
        [⟨7, 2, 3, 0, "2024-03-01"⟩, ⟨6, 2, 2, 0, "2024-03-01"⟩]
        [⟨1, 2, "2024-01-01"⟩] [] [] []) 1).get
          ⟨2, by decide⟩)
      ((show_feed_all (DB.mk []
        [⟨5, 2, "a", "2024-03-01", "09:00:00", none⟩,
         ⟨6, 2, "b", "2024-03-01", "08:00:00", none⟩,
         ⟨7, 3, "c", "2024-01-01", "07:00:00", none⟩]
        [⟨7, 2, 3, 0, "2024-03-01"⟩, ⟨6, 2, 2, 0, "2024-03-01"⟩]
        [⟨1, 2, "2024-01-01"⟩] [] [] []) 1).get
          ⟨3, by decide⟩)
    ∧ ((show_feed_all (DB.mk []
        [⟨5, 2, "a", "2024-03-01", "09:00:00", none⟩,
         ⟨6, 2, "b", "2024-03-01", "08:00:00", none⟩,
         ⟨7, 3, "c", "2024-01-01", "07:00:00", none⟩]
        [⟨7, 2, 3, 0, "2024-03-01"⟩, ⟨6, 2, 2, 0, "2024-03-01"⟩]
        [⟨1, 2, "2024-01-01"⟩] [] [] []) 1).get
          ⟨3, by decide⟩).ttime = "" := by
  have h := feed_ordering (DB.mk []
    [⟨5, 2, "a", "2024-03-01", "09:00:00", none⟩,
     ⟨6, 2, "b", "2024-03-01", "08:00:00", none⟩,
     ⟨7, 3, "c", "2024-01-01", "07:00:00", none⟩]
    [⟨7, 2, 3, 0, "2024-03-01"⟩, ⟨6, 2, 2, 0, "2024-03-01"⟩]
    [⟨1, 2, "2024-01-01"⟩] [] [] []) 1 2 3
    (by decide) (by decide)
  exact ⟨h.1, h.2.2.2 (by decide) (by decide)⟩

theorem pages_glue (l : List FeedRow) (n : Nat) :
    (List.range n).flatMap (fun k => (l.drop (5 * k)).take 5) = l.take (5 * n) := by
  induction n with
  | zero => simp
  | succ n ih =>
    rw [List.range_succ, List.flatMap_append]
    simp only [List.flatMap_cons, List.flatMap_nil, List.append_nil]
    rw [ih, Nat.mul_succ, List.take_add]

/-- C7: For a fixed follow-set and content snapshot, concatenating the feed
pages at offsets 0, 5, 10, ... yields exactly the full ordered stream, which
is a permutation of the eligible rows, so every eligible item occurrence
appears exactly once across the pages. -/
theorem feed_pagination_exact (db : DB) (usr : Nat) (n : Nat)
    (h : (show_feed_all db usr).length ≤ 5 * n) :
    (List.range n).flatMap (fun k => show_feed_page db usr (5 * k)) = show_feed_all db usr
    ∧ (show_feed_all db usr).Perm (feed_tweet_rows db usr ++ feed_retweet_rows db usr) := by
  constructor
  · unfold show_feed_page
    rw [pages_glue]
    exact List.take_of_length_le h
  · exact List.perm_insertionSort feedOrder _

/-- Witness for feed_pagination_exact on a concrete database whose feed has
three rows, so one page of five covers it. -/
theorem feed_pagination_exact_witness :
    (List.range 1).flatMap (fun k => show_feed_page (DB.mk []
      [⟨5, 2, "a", "2024-03-01", "09:00:00", none⟩,
       ⟨6, 2, "b", "2024-02-01", "08:00:00", none⟩,
       ⟨7, 2, "c", "2024-01-01", "07:00:00", none⟩]
      [] [⟨1, 2, "2024-01-01"⟩] [] [] []) 1 (5 * k)) =
    show_feed_all (DB.mk []
      [⟨5, 2, "a", "2024-03-01", "09:00:00", none⟩,
       ⟨6, 2, "b", "2024-02-01", "08:00:00", none⟩,
       ⟨7, 2, "c", "2024-01-01", "07:00:00", none⟩]
      [] [⟨1, 2, "2024-01-01"⟩] [] [] []) 1 := by
  exact (feed_pagination_exact (DB.mk []
    [⟨5, 2, "a", "2024-03-01", "09:00:00", none⟩,
     ⟨6, 2, "b", "2024-02-01", "08:00:00", none⟩,
     ⟨7, 2, "c", "2024-01-01", "07:00:00", none⟩]
    [] [⟨1, 2, "2024-01-01"⟩] [] [] []) 1 1 (by decide)).1

/-- Single-character comparison of SQLite LIKE without ESCAPE: literal
pattern characters match text characters up to ASCII case folding. -/
def likeCharEq (p c : Char) : Bool := lowerChar p == lowerChar c

/-- SQLite LIKE pattern matching (no ESCAPE clause): the percent sign matches
any character sequence, the underscore matches exactly one character, and
every other pattern character matches one text character case-insensitively.
This is the semantics of the expression LOWER(text) LIKE ? issued by
search_tweets (src/main.py:436). -/
def sqlLike : List Char → List Char → Bool
  | [], [] => true
  | [], _ :: _ => false
  | '%' :: ps, [] => sqlLike ps []
  | '%' :: ps, c :: cs => sqlLike ps (c :: cs) || sqlLike ('%' :: ps) cs
  | '_' :: _, [] => false
  | '_' :: ps, _ :: cs => sqlLike ps cs
  | _ :: _, [] => false
  | p :: ps, c :: cs => likeCharEq p c && sqlLike ps cs
termination_by ps cs => (ps.length, cs.length)

/-- The LIKE parameter built by search_tweets for one keyword:
percent, keyword, percent. -/
def likePat (kw : String) : List Char := '%' :: (kw.data ++ ['%'])

/-- Pointwise case-insensitive equality of two character lists of the same
length (the wildcard-free fragment of LIKE). -/
def plainEq : List Char → List Char → Bool
  | [], [] => true
  | [], _ :: _ => false
  | _ :: _, [] => false
  | p :: ps, c :: cs => likeCharEq p c && plainEq ps cs

theorem plainEq_iff_map (ps : List Char) : ∀ cs,
    plainEq ps cs = true ↔ ps.map lowerChar = cs.map lowerChar := by
  induction ps with
  | nil =>
    intro cs
    cases cs with
    | nil => simp [plainEq]
    | cons c cs => simp [plainEq]
  | cons p ps ih =>
    intro cs
    cases cs with
    | nil => simp [plainEq]
    | cons c cs =>
      simp only [plainEq, Bool.and_eq_true, List.map_cons, List.cons.injEq, ih cs]
      unfold likeCharEq
      rw [beq_iff_eq]

theorem sqlLike_pct_nil : ∀ cs, sqlLike ['%'] cs = true := by
  intro cs
  induction cs with
  | nil => rw [sqlLike.eq_3, sqlLike.eq_1]
  | cons c cs ih =>
    rw [sqlLike]
    simp [ih]

theorem sqlLike_pct (ps : List Char) : ∀ cs,
    sqlLike ('%' :: ps) cs = true ↔ ∃ cs2, cs2 <:+ cs ∧ sqlLike ps cs2 = true := by
  intro cs
  induction cs with
  | nil =>
    rw [sqlLike]
    constructor
    · intro h
      exact ⟨[], List.suffix_rfl, h⟩
    · rintro ⟨cs2, hsuf, h⟩
      rw [List.suffix_nil] at hsuf
      subst hsuf
      exact h
  | cons c cs ih =>
    rw [sqlLike]
    simp only [Bool.or_eq_true, ih]
    constructor
    · rintro (h | ⟨cs2, hsuf, h⟩)
      · exact ⟨c :: cs, List.suffix_rfl, h⟩
      · exact ⟨cs2, hsuf.trans (List.suffix_cons c cs), h⟩
    · rintro ⟨cs2, hsuf, h⟩
      rcases List.suffix_cons_iff.mp hsuf with he | hsuf2
      · subst he
        exact Or.inl h
      · exact Or.inr ⟨cs2, hsuf2, h⟩

theorem sqlLike_plain_nil {p : Char} (ps : List Char) (hp : p ≠ '%') :
    sqlLike (p :: ps) [] = false := by
  by_cases hu : p = '_'
  · subst hu
    rw [sqlLike.eq_5]
  · rw [sqlLike.eq_7 p ps (by intro h; exact absurd h hp) (by intro h; exact absurd h hu)]

theorem sqlLike_plain_cons {p : Char} (ps : List Char) (c : Char) (cs : List Char)
    (hp : p ≠ '%') (hu : p ≠ '_') :
    sqlLike (p :: ps) (c :: cs) = (likeCharEq p c && sqlLike ps cs) := by
  rw [sqlLike.eq_8 p ps c cs (by intro h; exact absurd h hp) (by intro h; exact absurd h hu)]

theorem sqlLike_plain_pct (ps : List Char) (hps : ∀ p ∈ ps, p ≠ '%' ∧ p ≠ '_') :
    ∀ cs, sqlLike (ps ++ ['%']) cs = true ↔
      ∃ pre, pre <+: cs ∧ plainEq ps pre = true := by
  induction ps with
  | nil =>
    intro cs
    simp only [List.nil_append]
    rw [sqlLike_pct_nil cs]
    constructor
    · intro _
      exact ⟨[], List.nil_prefix, rfl⟩
    · intro _
      rfl
  | cons p ps ih =>
    intro cs
    have hp := hps p (List.mem_cons_self p ps)
    have hps2 : ∀ q ∈ ps, q ≠ '%' ∧ q ≠ '_' := fun q hq => hps q (List.mem_cons_of_mem p hq)
    cases cs with
    | nil =>
      rw [List.cons_append, sqlLike_plain_nil (ps ++ ['%']) hp.1]
      constructor
      · intro h
        cases h
      · rintro ⟨pre, hpre, hpe⟩
        rw [List.prefix_nil] at hpre
        subst hpre
        simp [plainEq] at hpe
    | cons c cs =>
      rw [List.cons_append, sqlLike_plain_cons (ps ++ ['%']) c cs hp.1 hp.2]
      simp only [Bool.and_eq_true, ih hps2 cs]
      constructor
      · rintro ⟨hc, pre, hpre, hpe⟩
        refine ⟨c :: pre, ?_, ?_⟩
        · exact List.prefix_cons_iff.mpr (Or.inr ⟨pre, rfl, hpre⟩)
        · simp [plainEq, hc, hpe]
      · rintro ⟨pre, hpre, hpe⟩
        cases pre with
        | nil => simp [plainEq] at hpe
        | cons d pre =>
          rcases List.prefix_cons_iff.mp hpre with he | ⟨t, he, hpre2⟩
          · cases he
          · injection he with he1 he2
            subst he1
            subst he2
            simp only [plainEq, Bool.and_eq_true] at hpe
            exact ⟨hpe.1, pre, hpre2, hpe.2⟩

theorem strLower_idem (s : String) : strLower (strLower s) = strLower s := by
  unfold strLower
  apply String.ext
  show ((s.data.map lowerChar).map lowerChar) = s.data.map lowerChar
  exact map_lowerChar_idem s.data

/-- For a keyword free of LIKE wildcards, the pattern percent-keyword-percent
holds of a lowercased text exactly when the lowercased keyword is a
contiguous substring of it. -/
theorem sqlLike_substring (kw : String) (hkw : ∀ p ∈ kw.data, p ≠ '%' ∧ p ≠ '_')
    (cs : List Char) (hcs : cs.map lowerChar = cs) :
    sqlLike (likePat kw) cs = true ↔ (strLower kw).data <:+: cs := by
  unfold likePat
  rw [sqlLike_pct]
  constructor
  · rintro ⟨cs2, hsuf, h⟩
    rw [sqlLike_plain_pct kw.data hkw] at h
    rcases h with ⟨pre, hpre, hpe⟩
    rw [plainEq_iff_map] at hpe
    have hinf : pre <:+: cs := List.infix_iff_prefix_suffix.mpr ⟨cs2, hpre, hsuf⟩
    have h2 : pre.map lowerChar <:+: cs := by
      have h3 := hinf.map lowerChar
      rw [hcs] at h3
      exact h3
    show kw.data.map lowerChar <:+: cs
    rw [← hpe] at h2
    exact h2
  · intro h
    rcases List.infix_iff_prefix_suffix.mp h with ⟨t, hpre, hsuf⟩
    refine ⟨t, hsuf, ?_⟩
    rw [sqlLike_plain_pct kw.data hkw]
    refine ⟨(strLower kw).data, hpre, ?_⟩
    rw [plainEq_iff_map]
    show kw.data.map lowerChar = (kw.data.map lowerChar).map lowerChar
    rw [map_lowerChar_idem]

/-- One row of the search query of search_tweets (src/main.py:433-443):
tweet id, writer, text, date, time. -/
structure SearchRow where
  tid : Nat
  writer_id : Nat
  text : String
  tdate : String
  ttime : String
deriving DecidableEq

/-- Projection of a tweets row to a search result row. -/
def sRow (t : TweetRow) : SearchRow := ⟨t.tid, t.writer_id, t.text, t.tdate, t.ttime⟩

/-- First arm of the search UNION: tweets whose lowercased text matches some
LIKE pattern percent-keyword-percent. -/
def text_match_rows (db : DB) (kws : List String) : List SearchRow :=
  (db.tweets.filter (fun t =>
    kws.any (fun kw => sqlLike (likePat kw) (strLower t.text).data))).map sRow

/-- Second arm of the search UNION: tweets joined to hashtag_mentions on tid
where the lowercased term equals one of the keywords; one row per matching
(tweet, mention) pair before deduplication. -/
def hashtag_match_rows (db : DB) (kws : List String) : List SearchRow :=
  db.tweets.flatMap (fun t =>
    (db.hashtag_mentions.filter (fun m =>
      m.tid == t.tid && kws.contains (strLower m.term))).map (fun _ => sRow t))

/-- The ORDER BY tdate DESC, ttime DESC relation of the search query. -/
@[reducible] def searchOrder (a b : SearchRow) : Prop :=
  lexLt b.tdate.data a.tdate.data = true
  ∨ (b.tdate = a.tdate ∧ lexLe b.ttime.data a.ttime.data = true)

instance : DecidableRel searchOrder := fun a b =>
  inferInstanceAs (Decidable (_ ∨ _))

instance : IsTotal SearchRow searchOrder := by
  constructor
  intro a b
  rcases lexLt_total b.tdate.data a.tdate.data with h | h | h
  · exact Or.inl (Or.inl h)
  · have he : b.tdate = a.tdate := String.ext h
    rcases lexLe_total b.ttime.data a.ttime.data with h' | h'
    · exact Or.inl (Or.inr ⟨he, h'⟩)
    · exact Or.inr (Or.inr ⟨he.symm, h'⟩)
  · exact Or.inr (Or.inl h)

instance : IsTrans SearchRow searchOrder := by
  constructor
  intro a b c hab hbc
  rcases hab with h1 | ⟨e1, h1⟩
  · rcases hbc with h2 | ⟨e2, h2⟩
    · exact Or.inl (lexLt_trans h2 h1)
    · exact Or.inl (by rw [e2]; exact h1)
  · rcases hbc with h2 | ⟨e2, h2⟩
    · exact Or.inl (by rw [← e1]; exact h2)
    · exact Or.inr ⟨e2.trans e1, lexLe_trans h2 h1⟩

/-- search_tweets (src/main.py:421-453) after keyword tokenization: the
UNION (set union, duplicates removed) of the text-match arm and the
hashtag-match arm, sorted by date and time descending.  The caller rejects
an empty keyword list before this query is built. -/
def search_tweets (db : DB) (kws : List String) : List SearchRow :=
  List.insertionSort searchOrder
    ((text_match_rows db kws ++ hashtag_match_rows db kws).dedup)

/-- Search membership as the claim words it: some keyword is a
case-insensitive substring of the tweet text, or some hashtag term attached
to the tweet equals some keyword case-insensitively.  This definition follows
the specification text, to be compared against search_tweets. -/
@[reducible] def spec_search_match (db : DB) (kws : List String) (t : TweetRow) : Prop :=
  (∃ kw ∈ kws, (strLower kw).data <:+: (strLower t.text).data)
  ∨ (∃ m ∈ db.hashtag_mentions, m.tid = t.tid ∧ ∃ kw ∈ kws, strLower m.term = strLower kw)

/-- C3 (amended): for a non-empty keyword set whose keywords contain no LIKE
wildcard characters (percent or underscore) and are already lowercase, the
search result consists of exactly the tweets matching the claimed union of
text-substring and hashtag matches, and no tweet row appears twice. -/
theorem search_union_plain (db : DB) (kws : List String) (hne : kws ≠ [])
    (hplain : ∀ kw ∈ kws, ∀ p ∈ kw.data, p ≠ '%' ∧ p ≠ '_')
    (hlow : ∀ kw ∈ kws, strLower kw = kw) :
    (∀ r, r ∈ search_tweets db kws ↔
      ∃ t ∈ db.tweets, r = sRow t ∧ spec_search_match db kws t)
    ∧ (search_tweets db kws).Nodup := by
  have hlowfix : ∀ s : String, (strLower s).data.map lowerChar = (strLower s).data := by
    intro s
    show (s.data.map lowerChar).map lowerChar = s.data.map lowerChar
    exact map_lowerChar_idem s.data
  constructor
  · intro r
    unfold search_tweets
    rw [(List.perm_insertionSort searchOrder _).mem_iff, List.mem_dedup, List.mem_append]
    unfold text_match_rows hashtag_match_rows
    constructor
    · rintro (h | h)
      · rcases List.mem_map.mp h with ⟨t, ht, he⟩
        rcases List.mem_filter.mp ht with ⟨htm, hcond⟩
        rw [List.any_eq_true] at hcond
        rcases hcond with ⟨kw, hkw, hlike⟩
        refine ⟨t, htm, he.symm, Or.inl ⟨kw, hkw, ?_⟩⟩
        exact (sqlLike_substring kw (hplain kw hkw) (strLower t.text).data
          (hlowfix t.text)).mp hlike
      · rcases List.mem_flatMap.mp h with ⟨t, htm, hr⟩
        rcases List.mem_map.mp hr with ⟨m, hm, he⟩
        rcases List.mem_filter.mp hm with ⟨hmm, hcond⟩
        simp only [Bool.and_eq_true, beq_iff_eq] at hcond
        refine ⟨t, htm, he.symm, Or.inr ⟨m, hmm, hcond.1, ?_⟩⟩
        have hmem : strLower m.term ∈ kws := by
          have := hcond.2
          simpa using this
        exact ⟨strLower m.term, hmem, (strLower_idem m.term).symm⟩
    · rintro ⟨t, htm, he, hmatch⟩
      subst he
      rcases hmatch with ⟨kw, hkw, hsub⟩ | ⟨m, hmm, htid, kw, hkw, hterm⟩
      · left
        apply List.mem_map_of_mem
        apply List.mem_filter.mpr
        refine ⟨htm, ?_⟩
        rw [List.any_eq_true]
        refine ⟨kw, hkw, ?_⟩
        rw [sqlLike_substring kw (hplain kw hkw) (strLower t.text).data (hlowfix t.text)]
        exact hsub
      · right
        apply List.mem_flatMap.mpr
        refine ⟨t, htm, ?_⟩
        apply List.mem_map.mpr
        refine ⟨m, List.mem_filter.mpr ⟨hmm, ?_⟩, rfl⟩
        simp only [Bool.and_eq_true, beq_iff_eq]
        refine ⟨htid, ?_⟩
        have hterm2 : strLower m.term = kw := by rw [hterm, hlow kw hkw]
        rw [hterm2]
        simpa using hkw
  · exact ((List.perm_insertionSort searchOrder _).nodup_iff).mpr
      (List.nodup_dedup (text_match_rows db kws ++ hashtag_match_rows db kws))

/-- C3 counterexample: the claim as stated fails because keywords are passed
to SQL LIKE unescaped, so wildcard characters match more than substrings.
With the single keyword underscore and the tweet text abc, the tweet matches
LIKE percent-underscore-percent (underscore matches any one character) and is
returned, yet underscore is not a substring of abc and no hashtag matches, so
the result is not the claimed union. -/
theorem search_substring_cex :
    ¬ (∀ (db : DB) (kws : List String), kws ≠ [] →
        ∀ r, r ∈ search_tweets db kws ↔
          ∃ t ∈ db.tweets, r = sRow t ∧ spec_search_match db kws t) := by
  intro hclaim
  have e : search_tweets
      (DB.mk [] [⟨1, 1, "abc", "2024-01-01", "10:00:00", none⟩] [] [] [] [] []) ["_"] =
      [⟨1, 1, "abc", "2024-01-01", "10:00:00"⟩] := by
    simp [search_tweets, text_match_rows, hashtag_match_rows, likePat, strLower, lowerChar,
      sqlLike, likeCharEq, sRow, List.insertionSort, List.orderedInsert, Nat.isValidChar,
      Char.ofNat]
  have hmem : (⟨1, 1, "abc", "2024-01-01", "10:00:00"⟩ : SearchRow) ∈
      search_tweets
        (DB.mk [] [⟨1, 1, "abc", "2024-01-01", "10:00:00", none⟩] [] [] [] [] []) ["_"] := by
    rw [e]
    exact List.mem_singleton.mpr rfl
  have h2 := (hclaim
    (DB.mk [] [⟨1, 1, "abc", "2024-01-01", "10:00:00", none⟩] [] [] [] [] [])
    ["_"] (by decide) ⟨1, 1, "abc", "2024-01-01", "10:00:00"⟩).mp hmem
  rcases h2 with ⟨t, htm, _, hmatch⟩
  rw [List.mem_singleton] at htm
  subst htm
  revert hmatch
  decide

/-- Witness for search_union_plain: with keyword go, a tweet whose text
contains Go (case-insensitive substring match) and which also carries the
hashtag term go appears in the result, and the result has no duplicates. -/
theorem search_union_plain_witness :
    ((⟨1, 1, "Go home", "2024-01-01", "10:00:00"⟩ : SearchRow) ∈
      search_tweets (DB.mk [] [⟨1, 1, "Go home", "2024-01-01", "10:00:00", none⟩]
        [] [] [⟨1, "go"⟩] [] []) ["go"])
    ∧ (search_tweets (DB.mk [] [⟨1, 1, "Go home", "2024-01-01", "10:00:00", none⟩]
        [] [] [⟨1, "go"⟩] [] []) ["go"]).Nodup := by
  have h := search_union_plain
    (DB.mk [] [⟨1, 1, "Go home", "2024-01-01", "10:00:00", none⟩] [] [] [⟨1, "go"⟩] [] [])
    ["go"] (by decide) (by decide) (by decide)
  refine ⟨?_, h.2⟩
  apply (h.1 ⟨1, 1, "Go home", "2024-01-01", "10:00:00"⟩).mpr
  refine ⟨⟨1, 1, "Go home", "2024-01-01", "10:00:00", none⟩, by decide, rfl, ?_⟩
  decide
